import Mathlib

/-!
Verification of the watchdo repository: a shallow embedding of the
command lifecycle and history tracking engine (src/command_runner.rs,
src/command_history.rs, src/executor.rs and the orchestration pieces of
src/main.rs), together with theorems settling the specification claims.

The `Executor`/`Child` traits are abstract in the source; here they are
instantiated with a deterministic script-driven child process, exactly as
the repository's own unit tests do with `MockChild`/`MockExecutor`: a
child is a finite script of successive `poll` results, and an executor is
the list of children successive `start` calls hand out.  Wall-clock time
(`Instant::now`) is passed explicitly as a `Nat` parameter, and fallible
Rust code returning `Result` is embedded as `Except`; a Rust `unwrap` /
`unreachable!` failure is an explicit error constructor.
-/

deriving instance DecidableEq for Except

namespace Watchdo

/-- CommandOutput from src/executor.rs: result of a finished process. -/
structure CommandOutput where
  success : Bool
  out : String
  err : String
deriving DecidableEq

/-- One scripted result of a `Child::poll` call: still running,
exited with an output, or an OS error. -/
inductive PollStep
  | still
  | exit (o : CommandOutput)
  | oserr (e : String)
deriving DecidableEq

/-- A child process handle: the script of its future `poll` results plus
whether `terminate` has been signalled.  An exhausted script means the
child keeps running. -/
structure ChildProc where
  polls : List PollStep
  killed : Bool
deriving DecidableEq

/-- `Child::poll` on the script-driven child: consume the next scripted
result. -/
def ChildProc.poll : ChildProc → (Except String (Option CommandOutput)) × ChildProc
  | ⟨[], k⟩ => (.ok none, ⟨[], k⟩)
  | ⟨PollStep.still :: rest, k⟩ => (.ok none, ⟨rest, k⟩)
  | ⟨PollStep.exit o :: rest, k⟩ => (.ok (some o), ⟨rest, k⟩)
  | ⟨PollStep.oserr e :: rest, k⟩ => (.error e, ⟨rest, k⟩)

/-- `Child::terminate` on the script-driven child. -/
def ChildProc.terminate (c : ChildProc) : Except String ChildProc :=
  .ok { c with killed := true }

/-- An executor: the children successive `Executor::start` calls return;
an exhausted list makes `start` fail (spawn failure). -/
structure Executor where
  children : List ChildProc
deriving DecidableEq

/-- `Executor::start`. -/
def Executor.start : Executor → Except String (ChildProc × Executor)
  | ⟨[]⟩ => .error "spawn failed"
  | ⟨c :: rest⟩ => .ok (c, ⟨rest⟩)

/-- CommandRunner from src/command_runner.rs: owns zero-or-one in-flight
child and at most one cached output. -/
structure CommandRunner where
  executor : Executor
  child : Option ChildProc
  child_output : Option CommandOutput
deriving DecidableEq

/-- `CommandRunner::new`. -/
def CommandRunner.new (e : Executor) : CommandRunner :=
  { executor := e, child := none, child_output := none }

/-- `CommandRunner::run`: start a new child via the executor and track it. -/
def CommandRunner.run (r : CommandRunner) : Except String CommandRunner :=
  match r.executor.start with
  | .error e => .error e
  | .ok (c, ex) => .ok { r with executor := ex, child := some c }

/-- `CommandRunner::is_running`: poll the tracked child if any; on exit,
drop the handle and cache the output. -/
def CommandRunner.is_running (r : CommandRunner) : Except String (Bool × CommandRunner) :=
  match r.child with
  | none => .ok (false, r)
  | some c =>
    match c.poll with
    | (Except.ok (some o), _) => .ok (false, { r with child := none, child_output := some o })
    | (Except.ok none, c2) => .ok (true, { r with child := some c2 })
    | (Except.error e, _) => .error e

/-- `CommandRunner::try_finish`: `None` while running, otherwise
`child_output.take()`. -/
def CommandRunner.try_finish (r : CommandRunner) : Except String (Option CommandOutput × CommandRunner) :=
  match r.is_running with
  | .error e => .error e
  | .ok (true, r2) => .ok (none, r2)
  | .ok (false, r2) => .ok (r2.child_output, { r2 with child_output := none })

/-- `CommandRunner::terminate`: signal the tracked child if any. -/
def CommandRunner.terminate (r : CommandRunner) : Except String CommandRunner :=
  match r.child with
  | none => .ok r
  | some c =>
    match c.terminate with
    | .error e => .error e
    | .ok c2 => .ok { r with child := some c2 }

/-- Iterated `CommandRunner::try_finish`: the list of delivered outputs of
`n` successive calls, with the final runner state. -/
def CommandRunner.tryFinishN : Nat → CommandRunner → Except String (List (Option CommandOutput) × CommandRunner)
  | 0, r => .ok ([], r)
  | Nat.succ m, r =>
    match r.try_finish with
    | .error e => .error e
    | .ok (o, r2) =>
      match CommandRunner.tryFinishN m r2 with
      | .error e => .error e
      | .ok (os, r3) => .ok (o :: os, r3)

/-- CommandState from src/command_history.rs. -/
inductive CommandState
  | Requested
  | Running
  | Completed (o : CommandOutput)
  | Terminated (o : CommandOutput)
deriving DecidableEq

/-- Outcome of a fallible CommandHistory operation: a propagated runner
error, or one of the panics reachable in the source (`unwrap` on the
backward search for a `Running` entry in `try_finish`). -/
inductive HErr
  | runnerErr (e : String)
  | panicNoRunning
deriving DecidableEq

/-- CommandHistory from src/command_history.rs. -/
structure CommandHistory where
  runner : CommandRunner
  history : List CommandState
  terminated : Bool
deriving DecidableEq

/-- `CommandHistory::new`. -/
def CommandHistory.new (r : CommandRunner) : CommandHistory :=
  { runner := r, history := [], terminated := false }

/-- `CommandHistory::request_run`: push a `Requested` entry. -/
def CommandHistory.request_run (h : CommandHistory) : CommandHistory :=
  { h with history := h.history ++ [CommandState.Requested] }

/-- The `rfind`/`iter_mut` replacement in `CommandHistory::try_finish`:
replace the most recent `Running` entry with `s`; `none` when no
`Running` entry exists (where the source's `unwrap` panics). -/
def replaceLastRunning (s : CommandState) : List CommandState → Option (List CommandState)
  | [] => none
  | x :: xs =>
    match replaceLastRunning s xs with
    | some xs2 => some (x :: xs2)
    | none => if x = CommandState.Running then some (s :: xs) else none

/-- `CommandHistory::try_finish`: poll the runner; on a delivered output,
replace the most recent `Running` entry with `Completed` or, if the
`terminated` flag is set, `Terminated`. -/
def CommandHistory.try_finish (h : CommandHistory) : Except HErr (Option CommandOutput × CommandHistory) :=
  match h.runner.try_finish with
  | .error e => .error (.runnerErr e)
  | .ok (none, r2) => .ok (none, { h with runner := r2 })
  | .ok (some o, r2) =>
    let s := if h.terminated then CommandState.Terminated o else CommandState.Completed o
    match replaceLastRunning s h.history with
    | none => .error .panicNoRunning
    | some hist2 => .ok (some o, { h with runner := r2, history := hist2 })

/-- Private `CommandHistory::is_running`: true if the runner still runs;
otherwise flush any just-finished run through `try_finish`. -/
def CommandHistory.is_running (h : CommandHistory) : Except HErr (Bool × CommandHistory) :=
  match h.runner.is_running with
  | .error e => .error (.runnerErr e)
  | .ok (true, r2) => .ok (true, { h with runner := r2 })
  | .ok (false, r2) =>
    match CommandHistory.try_finish { h with runner := r2 } with
    | .error e => .error e
    | .ok (_, h2) => .ok (false, h2)

/-- `CommandHistory::run_if_needed`: no-op while running; otherwise
promote a trailing `Requested` entry to `Running` and start the runner. -/
def CommandHistory.run_if_needed (h : CommandHistory) : Except HErr CommandHistory :=
  match h.is_running with
  | .error e => .error e
  | .ok (true, h2) => .ok h2
  | .ok (false, h2) =>
    match h2.history.getLast? with
    | some CommandState.Requested =>
      match h2.runner.run with
      | .error e => .error (.runnerErr e)
      | .ok r2 => .ok { h2 with history := h2.history.dropLast ++ [CommandState.Running], runner := r2 }
    | _ => .ok h2

/-- `CommandHistory::has_outstanding_request`. -/
def CommandHistory.has_outstanding_request (h : CommandHistory) : Bool :=
  match h.history.getLast? with
  | some CommandState.Requested => true
  | _ => false

/-- `CommandHistory::last`. -/
def CommandHistory.lastState (h : CommandHistory) : Option CommandState :=
  h.history.getLast?

/-- `CommandHistory::restart`: graceful restart. -/
def CommandHistory.restart (h : CommandHistory) : Except HErr CommandHistory :=
  match h.is_running with
  | .error e => .error e
  | .ok (true, h2) =>
    if h2.terminated then .ok h2
    else
      match h2.runner.terminate with
      | .error e => .error (.runnerErr e)
      | .ok r2 => .ok { h2 with terminated := true, runner := r2 }
  | .ok (false, h2) =>
    match h2.runner.run with
    | .error e => .error (.runnerErr e)
    | .ok r2 => .ok { h2 with runner := r2 }

/-- The public CommandHistory operations. -/
inductive Op
  | request_run
  | run_if_needed
  | tryFinishOp
  | restartOp
deriving DecidableEq

/-- One public operation applied to a CommandHistory. -/
def CommandHistory.step (h : CommandHistory) : Op → Except HErr CommandHistory
  | Op.request_run => .ok h.request_run
  | Op.run_if_needed => h.run_if_needed
  | Op.tryFinishOp =>
    match h.try_finish with
    | .error e => .error e
    | .ok (_, h2) => .ok h2
  | Op.restartOp => h.restart

/-- A sequence of public operations applied to a CommandHistory. -/
def CommandHistory.runOps (h : CommandHistory) : List Op → Except HErr CommandHistory
  | [] => .ok h
  | op :: ops =>
    match h.step op with
    | .error e => .error e
    | .ok h2 => CommandHistory.runOps h2 ops

/-! ## src/executor.rs: `<subprocess::Popen as Child>::poll` -/

/-- The kind of a `std::io::Error` as the source inspects it. -/
inductive IOErrorKind
  | timedOut
  | other (s : String)
deriving DecidableEq

/-- `subprocess::CommunicateError`: an I/O error kind plus whatever had
been captured from stdout/stderr before the error (byte vectors as
`List Nat`). -/
structure CommunicateError where
  kind : IOErrorKind
  capture : Option (List Nat) × Option (List Nat)
deriving DecidableEq

/-- Is `b` a UTF-8 continuation byte (0x80-0xBF)? -/
def isCont (b : Nat) : Bool := 0x80 ≤ b && b ≤ 0xBF

/-- Fuel-indexed UTF-8 decoder implementing the validation performed by
`String::from_utf8`: strict rejection of overlong forms, surrogates,
stray continuation bytes and code points above U+10FFFF.  The fuel only
needs to be at least the byte count. -/
def utf8DecodeAux : Nat → List Nat → Option (List Char)
  | _, [] => some []
  | 0, _ :: _ => none
  | Nat.succ fuel, b1 :: rest =>
    if b1 ≤ 0x7F then
      (utf8DecodeAux fuel rest).map (fun cs => Char.ofNat b1 :: cs)
    else
      match rest with
      | [] => none
      | b2 :: rest2 =>
        if 0xC2 ≤ b1 && b1 ≤ 0xDF && isCont b2 then
          (utf8DecodeAux fuel rest2).map
            (fun cs => Char.ofNat ((b1 - 0xC0) * 0x40 + (b2 - 0x80)) :: cs)
        else
          match rest2 with
          | [] => none
          | b3 :: rest3 =>
            if (0xE0 ≤ b1 && b1 ≤ 0xEF && isCont b2 && isCont b3) &&
                !(b1 = 0xE0 && b2 < 0xA0) && !(b1 = 0xED && 0xA0 ≤ b2) then
              (utf8DecodeAux fuel rest3).map
                (fun cs =>
                  Char.ofNat ((b1 - 0xE0) * 0x1000 + (b2 - 0x80) * 0x40 + (b3 - 0x80)) :: cs)
            else
              match rest3 with
              | [] => none
              | b4 :: rest4 =>
                if (0xF0 ≤ b1 && b1 ≤ 0xF4 && isCont b2 && isCont b3 && isCont b4) &&
                    !(b1 = 0xF0 && b2 < 0x90) && !(b1 = 0xF4 && 0x90 ≤ b2) then
                  (utf8DecodeAux fuel rest4).map
                    (fun cs =>
                      Char.ofNat ((b1 - 0xF0) * 0x40000 + (b2 - 0x80) * 0x1000 +
                        (b3 - 0x80) * 0x40 + (b4 - 0x80)) :: cs)
                else none

/-- `String::from_utf8` on captured bytes. -/
def from_utf8 (bs : List Nat) : Option String :=
  (utf8DecodeAux bs.length bs).map (fun cs => String.mk cs)

/-- The state `Popen::poll` and the subsequent capture observe: whether
the process has exited (and with what success), and what
`communicate_start(...).limit_time(100ms).read_string()` returns. -/
structure PopenState where
  exitStatus : Option Bool
  readResult : Except CommunicateError (Option String × Option String)
deriving DecidableEq

/-- How a `poll` call can fail in the source: the `unreachable!` on a
half-captured Ok, the `unwrap` on a missing capture component of a
timeout error, a non-UTF-8 capture, or a propagated non-timeout I/O
error. -/
inductive PollError
  | panicHalfCapture
  | panicUnwrapCapture
  | utf8Error
  | ioError (e : CommunicateError)
deriving DecidableEq

/-- `<subprocess::Popen as Child>::poll` from src/executor.rs: `none`
while the process runs; on exit, read the captured output, treating a
timeout of the capture as delivery of the partial capture and any other
I/O error as fatal. -/
def popenPoll (p : PopenState) : Except PollError (Option CommandOutput) :=
  match p.exitStatus with
  | none => .ok none
  | some success =>
    match p.readResult with
    | .ok (some o, some e) => .ok (some { success := success, out := o, err := e })
    | .ok (none, _) => .error .panicHalfCapture
    | .ok (_, none) => .error .panicHalfCapture
    | .error err =>
      if err.kind ≠ IOErrorKind.timedOut then .error (.ioError err)
      else
        match err.capture.1 with
        | none => .error .panicUnwrapCapture
        | some bs1 =>
          match from_utf8 bs1 with
          | none => .error .utf8Error
          | some o =>
            match err.capture.2 with
            | none => .error .panicUnwrapCapture
            | some bs2 =>
              match from_utf8 bs2 with
              | none => .error .utf8Error
              | some e => .ok (some { success := success, out := o, err := e })

/-! ## src/main.rs: TestsHistory (debounce, server gate, rendering) -/

/-- TestState from src/main.rs; `Instant` timestamps are `Nat`. -/
inductive TestState
  | NotRan (requested_at : Nat)
  | Running
  | Completed (o : CommandOutput)
deriving DecidableEq

/-- ServerCommandState from src/main.rs. -/
inductive ServerCommandState
  | Running
  | Completed (o : CommandOutput)
deriving DecidableEq

/-- ServerState from src/main.rs. -/
structure ServerState where
  terminated : Bool
  state : ServerCommandState
deriving DecidableEq

/-- `ServerState::new`. -/
def ServerState.new : ServerState :=
  { terminated := false, state := ServerCommandState.Running }

/-- `ServerState::running`. -/
def ServerState.running (s : ServerState) : ServerState :=
  { s with state := ServerCommandState.Running }

/-- `ServerState::terminated`. -/
def ServerState.setTerminated (s : ServerState) : ServerState :=
  { s with terminated := true }

/-- `ServerState::finished`. -/
def ServerState.finished (s : ServerState) (o : CommandOutput) : ServerState :=
  { s with state := ServerCommandState.Completed o }

/-- TestsHistory from src/main.rs; the `HashMap<usize, ServerState>` is an
association list keyed by history index, and the throttle duration is in
the same `Nat` time unit as the timestamps. -/
structure TestsHistory where
  history : List TestState
  server_running_at : Option Nat
  server_history : List (Nat × ServerState)
  throttle : Nat
deriving DecidableEq

/-- `TestsHistory::new`. -/
def TestsHistory.new (throttle : Nat) : TestsHistory :=
  { history := [], server_running_at := none, server_history := [], throttle := throttle }

/-- `TestsHistory::new_file_tree`, with `Instant::now()` passed in as
`now`: skip the push while the last entry is a `NotRan` whose age is
within the throttle. -/
def TestsHistory.new_file_tree (h : TestsHistory) (now : Nat) : TestsHistory :=
  match h.history.getLast? with
  | some (TestState.NotRan t) =>
    if now - t ≤ h.throttle then h
    else { h with history := h.history ++ [TestState.NotRan now] }
  | _ => { h with history := h.history ++ [TestState.NotRan now] }

/-- Fold `new_file_tree` over a sequence of event times. -/
def TestsHistory.newFileTrees (h : TestsHistory) : List Nat → TestsHistory
  | [] => h
  | t :: ts => (h.new_file_tree t).newFileTrees ts

/-- `TestsHistory::want_to_run`. -/
def TestsHistory.want_to_run (h : TestsHistory) : Bool :=
  match h.history.find? (fun s => s = TestState.Running), h.history.getLast? with
  | none, some (TestState.NotRan _) => true
  | _, _ => false

/-- `TestsHistory::want_to_restart_server`. -/
def TestsHistory.want_to_restart_server (h : TestsHistory) : Bool :=
  if h.server_running_at = some (h.history.length - 1) then false
  else
    match h.history.getLast? with
    | some (TestState.Completed o) => o.success
    | _ => false

/-- HashMap `entry(index).or_insert(ServerState::new())` mutation helper:
apply `f` to the entry at `index`, inserting `ServerState.new` first when
absent. -/
def updateServerEntry (m : List (Nat × ServerState)) (index : Nat) (f : ServerState → ServerState) : List (Nat × ServerState) :=
  match m with
  | [] => [(index, f ServerState.new)]
  | (i, s) :: rest =>
    if i = index then (i, f s) :: rest
    else (i, s) :: updateServerEntry rest index f

/-- Panics reachable in the orchestration code of src/main.rs. -/
inductive TickErr
  | runnerErr (e : String)
  | panicServerNotRunning
deriving DecidableEq

/-- `TestsHistory::server_try_finish`: record a finished server output
against the index the server is running at; `(None, Some)` is the
source's `unreachable!`. -/
def TestsHistory.server_try_finish (h : TestsHistory) (output : Option CommandOutput) : Except TickErr TestsHistory :=
  match h.server_running_at, output with
  | some index, some o => .ok { h with server_history := updateServerEntry h.server_history index (fun s => s.finished o) }
  | none, none => .ok h
  | none, some _ => .error .panicServerNotRunning
  | some _, none => .ok h

/-- `TestsHistory::server_terminated`. -/
def TestsHistory.server_terminated (h : TestsHistory) : Except TickErr TestsHistory :=
  match h.server_running_at with
  | none => .error .panicServerNotRunning
  | some index => .ok { h with server_history := updateServerEntry h.server_history index (fun s => s.setTerminated) }

/-- `TestsHistory::server_started`. -/
def TestsHistory.server_started (h : TestsHistory) : TestsHistory :=
  let index := h.history.length - 1
  { h with server_running_at := some index,
           server_history := updateServerEntry h.server_history index (fun s => s.running) }

/-- What the server branch of a tick did to the server process. -/
inductive ServerAction
  | terminatedAction
  | startedAction
deriving DecidableEq

/-- The server branch of one iteration of the main loop
(src/main.rs lines 85-100): drain the server runner's finished output,
then — if a restart is wanted — terminate a running server or start an
idle one. -/
def serverTick (h : TestsHistory) (srv : CommandRunner) :
    Except TickErr (TestsHistory × CommandRunner × Option ServerAction) :=
  match srv.try_finish with
  | .error e => .error (.runnerErr e)
  | .ok (out, srv1) =>
    match h.server_try_finish out with
    | .error e => .error e
    | .ok h1 =>
      if h1.want_to_restart_server then
        match srv1.is_running with
        | .error e => .error (.runnerErr e)
        | .ok (true, srv2) =>
          match srv2.terminate with
          | .error e => .error (.runnerErr e)
          | .ok srv3 =>
            match h1.server_terminated with
            | .error e => .error e
            | .ok h2 => .ok (h2, srv3, some ServerAction.terminatedAction)
        | .ok (false, srv2) =>
          match srv2.run with
          | .error e => .error (.runnerErr e)
          | .ok srv3 => .ok (h1.server_started, srv3, some ServerAction.startedAction)
      else .ok (h1, srv1, none)

/-! ## src/main.rs: rendering -/

/-- The colors the source applies to glyphs. -/
inductive Color
  | black
  | white
  | yellow
  | green
  | red
deriving DecidableEq

/-- A `colored::ColoredString`: text with optional foreground and
background colors. -/
structure ColoredString where
  text : String
  fg : Option Color
  bg : Option Color
deriving DecidableEq

/-- The glyph `TestsHistory::print_test` renders for one history entry. -/
def testGlyph (okStr : String) : TestState → ColoredString
  | TestState.NotRan _ => ⟨".", none, none⟩
  | TestState.Running => ⟨"?", some Color.black, some Color.yellow⟩
  | TestState.Completed o =>
    if o.success then ⟨okStr, some Color.white, some Color.green⟩
    else ⟨"x", some Color.white, some Color.red⟩

/-- The padding glyph of `print_test`. -/
def blankGlyph : ColoredString := ⟨" ", none, some Color.white⟩

/-- `TestsHistory::print_test`: `n` blank glyphs chained with the history
glyphs, skipped by the history length and truncated to `n`. -/
def print_test (okStr : String) (history : List TestState) (n : Nat) : List ColoredString :=
  ((List.replicate n blankGlyph ++ history.map (testGlyph okStr)).drop history.length).take n

end Watchdo

namespace Watchdo

theorem CommandRunner.is_running_ok (r : CommandRunner) (b : Bool) (r2 : CommandRunner)
    (h : r.is_running = .ok (b, r2)) :
    r2.executor = r.executor ∧
      (b = true → (∃ c, r2.child = some c) ∧ r2.child_output = r.child_output) ∧
      (b = false → r2.child = none ∧ (r2 = r ∨ ∃ o, r2.child_output = some o)) := by
  unfold CommandRunner.is_running at h
  split at h
  · simp only [Except.ok.injEq, Prod.mk.injEq] at h
    obtain ⟨hb, hr⟩ := h
    subst hb hr
    simp_all
  · split at h <;> simp only [Except.ok.injEq, Prod.mk.injEq, reduceCtorEq] at h
    · obtain ⟨hb, hr⟩ := h
      subst hb hr
      simp
    · obtain ⟨hb, hr⟩ := h
      subst hb hr
      simp

theorem CommandRunner.run_ok (r r2 : CommandRunner) (h : r.run = .ok r2) :
    (∃ c, r2.child = some c) ∧ r2.child_output = r.child_output := by
  unfold CommandRunner.run at h
  split at h <;> simp only [Except.ok.injEq, reduceCtorEq] at h
  subst h
  simp

theorem CommandRunner.terminate_ok (r r2 : CommandRunner) (h : r.terminate = .ok r2) :
    (r2.child = none ↔ r.child = none) ∧ r2.child_output = r.child_output ∧
      r2.executor = r.executor := by
  unfold CommandRunner.terminate at h
  split at h
  · simp only [Except.ok.injEq] at h
    subst h
    simp
  · split at h <;> simp only [Except.ok.injEq, reduceCtorEq] at h
    subst h
    simp_all

theorem CommandRunner.try_finish_idle (r : CommandRunner) (hc : r.child = none)
    (ho : r.child_output = none) : r.try_finish = .ok (none, r) := by
  obtain ⟨ex, c, o⟩ := r
  simp only at hc ho
  subst hc ho
  simp [CommandRunner.try_finish, CommandRunner.is_running]

theorem CommandRunner.try_finish_ok (r : CommandRunner) (res : Option CommandOutput) (r2 : CommandRunner)
    (h : r.try_finish = .ok (res, r2)) :
    r2.executor = r.executor ∧
      (∀ o, res = some o → r2.child = none ∧ r2.child_output = none) ∧
      (res = none →
        ((∃ c, r2.child = some c) ∧ r2.child_output = r.child_output) ∨
        (r2 = r ∧ r.child = none ∧ r.child_output = none)) := by
  unfold CommandRunner.try_finish at h
  split at h
  · simp_all
  case _ r3 heq =>
    simp only [Except.ok.injEq, Prod.mk.injEq] at h
    obtain ⟨hres, hr⟩ := h
    subst hr
    obtain ⟨he, ht, _⟩ := CommandRunner.is_running_ok _ _ _ heq
    obtain ⟨⟨c, hc⟩, ho⟩ := ht rfl
    refine ⟨he, ?_, ?_⟩
    · intro o ho2
      rw [← hres] at ho2
      cases ho2
    · intro _
      exact Or.inl ⟨⟨c, hc⟩, ho⟩
  case _ r3 heq =>
    simp only [Except.ok.injEq, Prod.mk.injEq] at h
    obtain ⟨hres, hr⟩ := h
    subst hr
    obtain ⟨he, _, hf⟩ := CommandRunner.is_running_ok _ _ _ heq
    obtain ⟨hc, hd⟩ := hf rfl
    refine ⟨he, ?_, ?_⟩
    · intro o ho
      exact ⟨hc, rfl⟩
    · intro hn
      have hco : r3.child_output = none := by rw [hres, hn]
      right
      rcases hd with h1 | ⟨o, h2⟩
      · subst h1
        obtain ⟨a, b2, cc⟩ := r3
        simp_all
      · rw [h2] at hco
        cases hco

/-- C5: at-most-once output delivery by `CommandRunner::try_finish` —
once a call has delivered `some o`, every later call (here: any number
`n` of further calls) delivers `none` and leaves the runner unchanged,
until the next `run`/exit cycle. -/
theorem runner_at_most_once_delivery (r : CommandRunner) (o : CommandOutput)
    (r1 : CommandRunner) (n : Nat) (h : r.try_finish = .ok (some o, r1)) :
    CommandRunner.tryFinishN n r1 = .ok (List.replicate n none, r1) := by
  obtain ⟨_, hsome, _⟩ := CommandRunner.try_finish_ok _ _ _ h
  obtain ⟨hc, ho⟩ := hsome o rfl
  clear h
  induction n with
  | zero => rfl
  | succ m ih =>
    rw [CommandRunner.tryFinishN, CommandRunner.try_finish_idle r1 hc ho]
    simp only [ih]
    rfl

/-- Concrete witness for C5: a run that exits successfully on the first
poll, delivered once and then silent for three further calls. -/
theorem runner_at_most_once_delivery_witness :
    CommandRunner.tryFinishN 3 ⟨⟨[]⟩, none, none⟩ =
      .ok (List.replicate 3 none, ⟨⟨[]⟩, none, none⟩) :=
  runner_at_most_once_delivery
    ⟨⟨[]⟩, some ⟨[PollStep.exit ⟨true, "out", "err"⟩], false⟩, none⟩
    ⟨true, "out", "err"⟩ ⟨⟨[]⟩, none, none⟩ 3 (by decide)

/-- Number of `Running` entries in a history. -/
def countRunning (l : List CommandState) : Nat :=
  l.countP (fun s => decide (s = CommandState.Running))

theorem countRunning_append (l1 l2 : List CommandState) :
    countRunning (l1 ++ l2) = countRunning l1 + countRunning l2 := by
  simp [countRunning, List.countP_append]

theorem countRunning_requested : countRunning [CommandState.Requested] = 0 := by decide

theorem countRunning_running : countRunning [CommandState.Running] = 1 := by decide

theorem countRunning_dropLast_le (l : List CommandState) :
    countRunning l.dropLast ≤ countRunning l :=
  List.Sublist.countP_le _ (List.dropLast_sublist l)

theorem replaceLastRunning_count (s : CommandState) (hs : s ≠ CommandState.Running) :
    ∀ l l2, replaceLastRunning s l = some l2 → countRunning l2 + 1 = countRunning l := by
  intro l
  induction l with
  | nil => intro l2 h; cases h
  | cons x xs ih =>
    intro l2 h
    rw [replaceLastRunning] at h
    split at h
    case _ xs2 heq =>
      simp only [Option.some.injEq] at h
      subst h
      have := ih xs2 heq
      simp only [show (x :: xs2) = [x] ++ xs2 from rfl, show (x :: xs) = [x] ++ xs from rfl,
        countRunning_append]
      omega
    case _ heq =>
      split at h
      case _ hx =>
        simp only [Option.some.injEq] at h
        subst h hx
        simp only [show (s :: xs) = [s] ++ xs from rfl,
          show (CommandState.Running :: xs) = [CommandState.Running] ++ xs from rfl,
          countRunning_append, countRunning_running]
        have hzero : countRunning [s] = 0 := by
          cases s <;> simp_all [countRunning]
        omega
      · cases h

/-- A runner with no tracked child delivers its cached output. -/
theorem CommandRunner.try_finish_childless (r : CommandRunner) (hc : r.child = none) :
    r.try_finish = .ok (r.child_output, { r with child_output := none }) := by
  obtain ⟨ex, c, o⟩ := r
  simp only at hc
  subst hc
  simp [CommandRunner.try_finish, CommandRunner.is_running]

/-- The invariant tying the history to the runner: at most one `Running`
entry, and whenever one exists the runner has an in-flight child or an
unclaimed cached output. -/
def Inv (h : CommandHistory) : Prop :=
  countRunning h.history ≤ 1 ∧
    (countRunning h.history = 1 → h.runner.child ≠ none ∨ h.runner.child_output ≠ none)

/-- What a successful `CommandHistory::try_finish` does: either nothing
finished (history untouched), or the delivered output replaced the most
recent `Running` entry with a non-`Running` state. -/
theorem CommandHistory.try_finish_spec (h : CommandHistory) (res : Option CommandOutput)
    (h2 : CommandHistory) (htf : h.try_finish = .ok (res, h2)) :
    h2.terminated = h.terminated ∧
      ((h2.history = h.history ∧ res = none ∧ h2.runner.executor = h.runner.executor ∧
          (((∃ c, h2.runner.child = some c) ∧ h2.runner.child_output = h.runner.child_output) ∨
            (h2.runner = h.runner ∧ h.runner.child = none ∧ h.runner.child_output = none))) ∨
        (∃ o s, res = some o ∧ s ≠ CommandState.Running ∧
          replaceLastRunning s h.history = some h2.history ∧
          h2.runner.child = none ∧ h2.runner.child_output = none ∧
          h2.runner.executor = h.runner.executor)) := by
  unfold CommandHistory.try_finish at htf
  split at htf
  · cases htf
  case _ r2 heq =>
    simp only [Except.ok.injEq, Prod.mk.injEq] at htf
    obtain ⟨hres, hh⟩ := htf
    subst hh
    obtain ⟨he, _, hn⟩ := CommandRunner.try_finish_ok _ _ _ heq
    exact ⟨rfl, Or.inl ⟨rfl, hres.symm, he, hn rfl⟩⟩
  case _ o r2 heq =>
    simp only at htf
    generalize hgen : (if h.terminated then CommandState.Terminated o else CommandState.Completed o) = s0 at htf
    have hs0 : s0 ≠ CommandState.Running := by
      rw [← hgen]
      split
      · simp
      · simp
    split at htf
    · cases htf
    case _ hist2 hrep =>
      simp only [Except.ok.injEq, Prod.mk.injEq] at htf
      obtain ⟨hres, hh⟩ := htf
      subst hh
      obtain ⟨he, hsome, _⟩ := CommandRunner.try_finish_ok _ _ _ heq
      obtain ⟨hc, ho⟩ := hsome o rfl
      exact ⟨rfl, Or.inr ⟨o, s0, hres.symm, hs0, hrep, hc, ho, he⟩⟩

/-- What a successful private `CommandHistory::is_running` does, under
the invariant: a `true` answer leaves the history alone with a live
child, a `false` answer leaves no `Running` entry and an emptied
runner. -/
theorem CommandHistory.is_running_spec (h : CommandHistory) (b : Bool) (h2 : CommandHistory)
    (hInv : Inv h) (hr : h.is_running = .ok (b, h2)) :
    h2.terminated = h.terminated ∧ Inv h2 ∧
      (b = true → h2.history = h.history ∧ (∃ c, h2.runner.child = some c) ∧
        h2.runner.executor = h.runner.executor) ∧
      (b = false → countRunning h2.history = 0 ∧ h2.runner.child = none ∧
        h2.runner.child_output = none) := by
  unfold CommandHistory.is_running at hr
  split at hr
  · cases hr
  case _ r2 heq =>
    simp only [Except.ok.injEq, Prod.mk.injEq] at hr
    obtain ⟨hb, hh⟩ := hr
    subst hh
    obtain ⟨he, ht, _⟩ := CommandRunner.is_running_ok _ _ _ heq
    obtain ⟨⟨c, hc⟩, ho⟩ := ht rfl
    refine ⟨rfl, ⟨hInv.1, fun _ => Or.inl (by simp [hc])⟩, ?_, ?_⟩
    · intro _
      exact ⟨rfl, ⟨c, hc⟩, he⟩
    · intro hfalse
      rw [← hb] at hfalse
      cases hfalse
  case _ r2 heq =>
    obtain ⟨hex, _, hf⟩ := CommandRunner.is_running_ok _ _ _ heq
    obtain ⟨hc, hd⟩ := hf rfl
    split at hr
    · cases hr
    case _ res h3 htf =>
      simp only [Except.ok.injEq, Prod.mk.injEq] at hr
      obtain ⟨hb, hh⟩ := hr
      subst hh
      unfold CommandHistory.try_finish at htf
      rw [show ({ h with runner := r2 } : CommandHistory).runner = r2 from rfl,
        CommandRunner.try_finish_childless r2 hc] at htf
      cases hco : r2.child_output with
      | none =>
        rw [hco] at htf
        simp only [Except.ok.injEq, Prod.mk.injEq] at htf
        obtain ⟨hres, hh3⟩ := htf
        subst hh3
        have hr2 : r2 = h.runner := by
          rcases hd with h1 | ⟨o, h2o⟩
          · exact h1
          · rw [h2o] at hco
            cases hco
        have hcount : countRunning h.history = 0 := by
          have h1 := hInv.1
          have h2i := hInv.2
          by_cases hcc : countRunning h.history = 1
          · rcases h2i hcc with hlive | hlive
            · rw [← hr2] at hlive
              exact absurd hc hlive
            · rw [← hr2] at hlive
              exact absurd hco hlive
          · omega
        refine ⟨rfl, ⟨by simp [hcount], by simp [hcount]⟩, ?_, ?_⟩
        · intro htrue
          rw [← hb] at htrue
          cases htrue
        · intro _
          exact ⟨by simpa using hcount, hc, rfl⟩
      | some o =>
        rw [hco] at htf
        simp only at htf
        generalize hgen : (if ({ h with runner := r2 } : CommandHistory).terminated then CommandState.Terminated o else CommandState.Completed o) = s0 at htf
        have hs0 : s0 ≠ CommandState.Running := by
          rw [← hgen]
          split
          · simp
          · simp
        split at htf
        · cases htf
        case _ hist2 hrep =>
          simp only [Except.ok.injEq, Prod.mk.injEq] at htf
          obtain ⟨hres, hh3⟩ := htf
          subst hh3
          have hcount := replaceLastRunning_count s0 hs0 _ _ hrep
          have h1 := hInv.1
          have hz : countRunning hist2 = 0 := by omega
          refine ⟨rfl, ⟨?_, ?_⟩, ?_, ?_⟩
          · show countRunning hist2 ≤ 1
            omega
          · intro hcc
            exact absurd (show countRunning hist2 = 1 from hcc) (by omega)
          · intro htrue
            rw [← hb] at htrue
            cases htrue
          · intro _
            exact ⟨show countRunning hist2 = 0 from hz, hc, rfl⟩

/-- Every public operation preserves the invariant. -/
theorem step_preserves_inv (h h2 : CommandHistory) (op : Op) (hInv : Inv h)
    (hs : h.step op = .ok h2) : Inv h2 := by
  cases op with
  | request_run =>
    simp only [CommandHistory.step, Except.ok.injEq] at hs
    subst hs
    constructor
    · show countRunning (h.history ++ [CommandState.Requested]) ≤ 1
      rw [countRunning_append, countRunning_requested]
      have := hInv.1
      omega
    · intro hcc
      have hcc2 : countRunning (h.history ++ [CommandState.Requested]) = 1 := hcc
      rw [countRunning_append, countRunning_requested] at hcc2
      exact hInv.2 (by omega)
  | run_if_needed =>
    simp only [CommandHistory.step] at hs
    unfold CommandHistory.run_if_needed at hs
    split at hs
    · cases hs
    case _ h3 heq =>
      simp only [Except.ok.injEq] at hs
      subst hs
      exact (CommandHistory.is_running_spec _ _ _ hInv heq).2.1
    case _ h3 heq =>
      obtain ⟨_, hInv3, _, hfalse⟩ := CommandHistory.is_running_spec _ _ _ hInv heq
      obtain ⟨hcount, _, _⟩ := hfalse rfl
      split at hs
      · split at hs
        · cases hs
        case _ r2 hrun =>
          simp only [Except.ok.injEq] at hs
          subst hs
          obtain ⟨⟨c, hc⟩, _⟩ := CommandRunner.run_ok _ _ hrun
          constructor
          · show countRunning (h3.history.dropLast ++ [CommandState.Running]) ≤ 1
            rw [countRunning_append, countRunning_running]
            have := countRunning_dropLast_le h3.history
            omega
          · intro _
            exact Or.inl (by simp [hc])
      · simp only [Except.ok.injEq] at hs
        subst hs
        exact hInv3
  | tryFinishOp =>
    simp only [CommandHistory.step] at hs
    split at hs
    · cases hs
    case _ res h3 htf =>
      simp only [Except.ok.injEq] at hs
      subst hs
      obtain ⟨_, hcases⟩ := CommandHistory.try_finish_spec _ _ _ htf
      rcases hcases with ⟨hh, _, _, hrun⟩ | ⟨o, s0, _, hs0, hrep, hc, ho, _⟩
      · constructor
        · rw [hh]
          exact hInv.1
        · intro hcc
          rw [hh] at hcc
          rcases hrun with ⟨⟨c, hc⟩, _⟩ | ⟨he, hcn, hon⟩
          · exact Or.inl (by simp [hc])
          · rw [he]
            exact hInv.2 hcc
      · have hcount := replaceLastRunning_count s0 hs0 _ _ hrep
        have h1 := hInv.1
        constructor
        · omega
        · intro hcc
          exact absurd hcc (by omega)
  | restartOp =>
    simp only [CommandHistory.step] at hs
    unfold CommandHistory.restart at hs
    split at hs
    · cases hs
    case _ h3 heq =>
      obtain ⟨_, hInv3, htrue, _⟩ := CommandHistory.is_running_spec _ _ _ hInv heq
      obtain ⟨hh, ⟨c, hc⟩, _⟩ := htrue rfl
      split at hs
      · simp only [Except.ok.injEq] at hs
        subst hs
        exact hInv3
      · split at hs
        · cases hs
        case _ r2 hterm =>
          simp only [Except.ok.injEq] at hs
          subst hs
          obtain ⟨hciff, _, _⟩ := CommandRunner.terminate_ok _ _ hterm
          constructor
          · exact hInv3.1
          · intro hcc
            refine Or.inl ?_
            intro hcn
            rw [hciff] at hcn
            rw [hc] at hcn
            cases hcn
    case _ h3 heq =>
      obtain ⟨_, _, _, hfalse⟩ := CommandHistory.is_running_spec _ _ _ hInv heq
      obtain ⟨hcount, _, _⟩ := hfalse rfl
      split at hs
      · cases hs
      case _ r2 hrun =>
        simp only [Except.ok.injEq] at hs
        subst hs
        constructor
        · show countRunning h3.history ≤ 1
          omega
        · intro hcc
          exact absurd (show countRunning h3.history = 1 from hcc) (by omega)

/-- Sequences of public operations preserve the invariant. -/
theorem runOps_preserves_inv (ops : List Op) (h h2 : CommandHistory) (hInv : Inv h)
    (hr : h.runOps ops = .ok h2) : Inv h2 := by
  induction ops generalizing h with
  | nil =>
    simp only [CommandHistory.runOps, Except.ok.injEq] at hr
    subst hr
    exact hInv
  | cons op ops ih =>
    simp only [CommandHistory.runOps] at hr
    split at hr
    · cases hr
    case _ h3 hstep =>
      exact ih _ (step_preserves_inv _ _ _ hInv hstep) hr

/-- C6: in every CommandHistory state reachable by public operations the
history holds at most one `Running` entry, and while a prior child is
still executing `run_if_needed` only records the poll — it neither starts
the runner (the executor is untouched) nor changes the history. -/
theorem at_most_one_running (e : Executor) (ops : List Op) (h : CommandHistory)
    (r1 : CommandRunner)
    (hreach : (CommandHistory.new (CommandRunner.new e)).runOps ops = .ok h) :
    countRunning h.history ≤ 1 ∧
      (h.runner.is_running = .ok (true, r1) →
        h.run_if_needed = .ok { h with runner := r1 } ∧
          r1.executor = h.runner.executor) := by
  have hInv0 : Inv (CommandHistory.new (CommandRunner.new e)) := by
    constructor
    · show countRunning [] ≤ 1
      simp [countRunning]
    · intro hcc
      exact absurd (show countRunning [] = 1 from hcc) (by simp [countRunning])
  have hInv := runOps_preserves_inv _ _ _ hInv0 hreach
  refine ⟨hInv.1, ?_⟩
  intro hrun
  refine ⟨?_, (CommandRunner.is_running_ok _ _ _ hrun).1⟩
  simp [CommandHistory.run_if_needed, CommandHistory.is_running, hrun]

/-- Concrete witness for C6: after one request and one promotion the
single entry is `Running`, and a further `run_if_needed` while the child
polls as alive is a pure poll. -/
theorem at_most_one_running_witness :
    countRunning (⟨⟨⟨[]⟩, some ⟨[PollStep.still, PollStep.still], false⟩, none⟩,
        [CommandState.Running], false⟩ : CommandHistory).history ≤ 1 ∧
      ((⟨⟨⟨[]⟩, some ⟨[PollStep.still, PollStep.still], false⟩, none⟩,
          [CommandState.Running], false⟩ : CommandHistory).runner.is_running =
          .ok (true, ⟨⟨[]⟩, some ⟨[PollStep.still], false⟩, none⟩) →
        (⟨⟨⟨[]⟩, some ⟨[PollStep.still, PollStep.still], false⟩, none⟩,
          [CommandState.Running], false⟩ : CommandHistory).run_if_needed =
            .ok { (⟨⟨⟨[]⟩, some ⟨[PollStep.still, PollStep.still], false⟩, none⟩,
              [CommandState.Running], false⟩ : CommandHistory) with
                runner := ⟨⟨[]⟩, some ⟨[PollStep.still], false⟩, none⟩ } ∧
          (⟨⟨[]⟩, some ⟨[PollStep.still], false⟩, none⟩ : CommandRunner).executor =
            (⟨⟨[]⟩, some ⟨[PollStep.still, PollStep.still], false⟩, none⟩ : CommandRunner).executor) :=
  at_most_one_running ⟨[⟨[PollStep.still, PollStep.still], false⟩]⟩
    [Op.request_run, Op.run_if_needed]
    ⟨⟨⟨[]⟩, some ⟨[PollStep.still, PollStep.still], false⟩, none⟩, [CommandState.Running], false⟩
    ⟨⟨[]⟩, some ⟨[PollStep.still], false⟩, none⟩ (by decide)

/-- `n` consecutive `request_run` calls. -/
def CommandHistory.requestN (h : CommandHistory) : Nat → CommandHistory
  | 0 => h
  | Nat.succ m => (h.request_run).requestN m

theorem requestN_spec (h : CommandHistory) (n : Nat) :
    (h.requestN n).history = h.history ++ List.replicate n CommandState.Requested ∧
      (h.requestN n).runner = h.runner ∧ (h.requestN n).terminated = h.terminated := by
  induction n generalizing h with
  | zero => simp [CommandHistory.requestN]
  | succ m ih =>
    obtain ⟨h1, h2, h3⟩ := ih h.request_run
    refine ⟨?_, h2, h3⟩
    show ((h.request_run).requestN m).history =
      h.history ++ List.replicate (m + 1) CommandState.Requested
    rw [h1]
    show (h.history ++ [CommandState.Requested]) ++ List.replicate m CommandState.Requested =
      h.history ++ List.replicate (m + 1) CommandState.Requested
    rw [List.append_assoc]
    rfl

/-- Position `i` holds a `Requested` entry that is not the most recent
entry. -/
def stableAt (l : List CommandState) (i : Nat) : Prop :=
  i + 1 < l.length ∧ l[i]? = some CommandState.Requested

theorem stableAt_append (l l2 : List CommandState) (i : Nat) (h : stableAt l i) :
    stableAt (l ++ l2) i := by
  obtain ⟨hl, hg⟩ := h
  constructor
  · rw [List.length_append]
    omega
  · rw [List.getElem?_append_left (by omega)]
    exact hg

theorem replaceLastRunning_length (s : CommandState) :
    ∀ l l2, replaceLastRunning s l = some l2 → l2.length = l.length := by
  intro l
  induction l with
  | nil => intro l2 h; cases h
  | cons x xs ih =>
    intro l2 h
    rw [replaceLastRunning] at h
    split at h
    case _ xs2 heq =>
      simp only [Option.some.injEq] at h
      subst h
      simp [ih xs2 heq]
    case _ =>
      split at h
      · simp only [Option.some.injEq] at h
        subst h
        simp
      · cases h

theorem replaceLastRunning_requested (s : CommandState) :
    ∀ (l l2 : List CommandState), replaceLastRunning s l = some l2 →
      ∀ (i : Nat), l[i]? = some CommandState.Requested →
        l2[i]? = some CommandState.Requested := by
  intro l
  induction l with
  | nil => intro l2 h; cases h
  | cons x xs ih =>
    intro l2 h i hi
    rw [replaceLastRunning] at h
    split at h
    case _ xs2 heq =>
      simp only [Option.some.injEq] at h
      subst h
      cases i with
      | zero => simpa using hi
      | succ j =>
        simp only [List.getElem?_cons_succ] at hi ⊢
        exact ih xs2 heq j hi
    case _ =>
      split at h
      case _ hx =>
        simp only [Option.some.injEq] at h
        subst h
        cases i with
        | zero =>
          subst hx
          simp at hi
        | succ j => simpa using hi
      · cases h

theorem stableAt_replaceLastRunning (s : CommandState) (l l2 : List CommandState) (i : Nat)
    (hrep : replaceLastRunning s l = some l2) (h : stableAt l i) : stableAt l2 i := by
  obtain ⟨hl, hg⟩ := h
  exact ⟨by rw [replaceLastRunning_length s l l2 hrep]; exact hl,
    replaceLastRunning_requested s l l2 hrep i hg⟩

theorem stableAt_promote (l : List CommandState) (i : Nat) (h : stableAt l i) :
    stableAt (l.dropLast ++ [CommandState.Running]) i := by
  obtain ⟨hl, hg⟩ := h
  have hlen : l.dropLast.length = l.length - 1 := List.length_dropLast l
  constructor
  · rw [List.length_append, hlen]
    simp only [List.length_singleton]
    omega
  · rw [List.getElem?_append_left (by rw [hlen]; omega)]
    rw [List.dropLast_eq_take, List.getElem?_take]
    simp only [if_pos (show i < l.length - 1 by omega)]
    exact hg

/-- `is_running` leaves the history alone or performs the `try_finish`
replacement. -/
theorem CommandHistory.is_running_history (h : CommandHistory) (b : Bool) (h2 : CommandHistory)
    (hr : h.is_running = .ok (b, h2)) :
    h2.history = h.history ∨
      ∃ s, s ≠ CommandState.Running ∧ replaceLastRunning s h.history = some h2.history := by
  unfold CommandHistory.is_running at hr
  split at hr
  · cases hr
  case _ r2 heq =>
    simp only [Except.ok.injEq, Prod.mk.injEq] at hr
    obtain ⟨_, hh⟩ := hr
    subst hh
    exact Or.inl rfl
  case _ r2 heq =>
    split at hr
    · cases hr
    case _ res h3 htf =>
      simp only [Except.ok.injEq, Prod.mk.injEq] at hr
      obtain ⟨_, hh⟩ := hr
      subst hh
      obtain ⟨_, hcases⟩ := CommandHistory.try_finish_spec _ _ _ htf
      rcases hcases with ⟨hh, _⟩ | ⟨o, s0, _, hs0, hrep, _⟩
      · exact Or.inl hh
      · exact Or.inr ⟨s0, hs0, hrep⟩

theorem stableAt_is_running (h : CommandHistory) (b : Bool) (h2 : CommandHistory) (i : Nat)
    (hr : h.is_running = .ok (b, h2)) (hst : stableAt h.history i) : stableAt h2.history i := by
  rcases CommandHistory.is_running_history _ _ _ hr with hh | ⟨s, _, hrep⟩
  · rw [hh]
    exact hst
  · exact stableAt_replaceLastRunning s _ _ i hrep hst

/-- Every public operation preserves a non-final `Requested` entry. -/
theorem step_preserves_stableAt (h h2 : CommandHistory) (op : Op) (i : Nat)
    (hs : h.step op = .ok h2) (hst : stableAt h.history i) : stableAt h2.history i := by
  cases op with
  | request_run =>
    simp only [CommandHistory.step, Except.ok.injEq] at hs
    subst hs
    exact stableAt_append _ _ _ hst
  | run_if_needed =>
    simp only [CommandHistory.step] at hs
    unfold CommandHistory.run_if_needed at hs
    split at hs
    · cases hs
    case _ h3 heq =>
      simp only [Except.ok.injEq] at hs
      subst hs
      exact stableAt_is_running _ _ _ _ heq hst
    case _ h3 heq =>
      have hst3 := stableAt_is_running _ _ _ i heq hst
      split at hs
      · split at hs
        · cases hs
        case _ r2 hrun =>
          simp only [Except.ok.injEq] at hs
          subst hs
          exact stableAt_promote _ _ hst3
      · simp only [Except.ok.injEq] at hs
        subst hs
        exact hst3
  | tryFinishOp =>
    simp only [CommandHistory.step] at hs
    split at hs
    · cases hs
    case _ res h3 htf =>
      simp only [Except.ok.injEq] at hs
      subst hs
      obtain ⟨_, hcases⟩ := CommandHistory.try_finish_spec _ _ _ htf
      rcases hcases with ⟨hh, _⟩ | ⟨o, s0, _, hs0, hrep, _⟩
      · rw [hh]
        exact hst
      · exact stableAt_replaceLastRunning s0 _ _ i hrep hst
  | restartOp =>
    simp only [CommandHistory.step] at hs
    unfold CommandHistory.restart at hs
    split at hs
    · cases hs
    case _ h3 heq =>
      have hst3 := stableAt_is_running _ _ _ i heq hst
      split at hs
      · simp only [Except.ok.injEq] at hs
        subst hs
        exact hst3
      · split at hs
        · cases hs
        case _ r2 hterm =>
          simp only [Except.ok.injEq] at hs
          subst hs
          exact hst3
    case _ h3 heq =>
      have hst3 := stableAt_is_running _ _ _ i heq hst
      split at hs
      · cases hs
      case _ r2 hrun =>
        simp only [Except.ok.injEq] at hs
        subst hs
        exact hst3

theorem runOps_preserves_stableAt (ops : List Op) (h h2 : CommandHistory) (i : Nat)
    (hst : stableAt h.history i) (hr : h.runOps ops = .ok h2) : stableAt h2.history i := by
  induction ops generalizing h with
  | nil =>
    simp only [CommandHistory.runOps, Except.ok.injEq] at hr
    subst hr
    exact hst
  | cons op ops ih =>
    simp only [CommandHistory.runOps] at hr
    split at hr
    · cases hr
    case _ h3 hstep =>
      exact ih _ (step_preserves_stableAt _ _ _ _ hstep hst) hr

/-- C7: `n` consecutive `request_run` calls (no intervening operation)
append exactly `n` `Requested` entries and touch neither the runner nor
the flag, and under any later sequence of public operations every one of
those entries except the most recent is still `Requested` — only the most
recent can ever be promoted to `Running`. -/
theorem request_run_coalescing (h0 : CommandHistory) (n : Nat) (ops : List Op)
    (h2 : CommandHistory) (i : Nat)
    (hrun : (h0.requestN n).runOps ops = .ok h2)
    (hlo : h0.history.length ≤ i) (hhi : i + 1 < h0.history.length + n) :
    (h0.requestN n).history = h0.history ++ List.replicate n CommandState.Requested ∧
      (h0.requestN n).runner = h0.runner ∧
      h2.history[i]? = some CommandState.Requested := by
  obtain ⟨hh, hrr, _⟩ := requestN_spec h0 n
  refine ⟨hh, hrr, ?_⟩
  have hst : stableAt (h0.requestN n).history i := by
    rw [hh]
    constructor
    · rw [List.length_append, List.length_replicate]
      omega
    · rw [List.getElem?_append_right hlo, List.getElem?_replicate]
      simp only [if_pos (show i - h0.history.length < n by omega)]
  exact (runOps_preserves_stableAt _ _ _ _ hst hrun).2

/-- Concrete witness for C7: three requests, then one `run_if_needed`;
the middle entry (index 1) is still `Requested` afterwards. -/
theorem request_run_coalescing_witness :
    ((CommandHistory.new (CommandRunner.new ⟨[⟨[PollStep.still], false⟩]⟩)).requestN 3).history =
        [] ++ List.replicate 3 CommandState.Requested ∧
      ((CommandHistory.new (CommandRunner.new ⟨[⟨[PollStep.still], false⟩]⟩)).requestN 3).runner =
        CommandRunner.new ⟨[⟨[PollStep.still], false⟩]⟩ ∧
      (⟨⟨⟨[]⟩, some ⟨[PollStep.still], false⟩, none⟩,
        [CommandState.Requested, CommandState.Requested, CommandState.Running], false⟩ :
          CommandHistory).history[1]? = some CommandState.Requested :=
  request_run_coalescing (CommandHistory.new (CommandRunner.new ⟨[⟨[PollStep.still], false⟩]⟩))
    3 [Op.run_if_needed]
    ⟨⟨⟨[]⟩, some ⟨[PollStep.still], false⟩, none⟩,
      [CommandState.Requested, CommandState.Requested, CommandState.Running], false⟩
    1 (by decide) (by decide) (by decide)

theorem replaceLastRunning_append_running (s : CommandState) (xs : List CommandState) :
    replaceLastRunning s (xs ++ [CommandState.Running]) = some (xs ++ [s]) := by
  induction xs with
  | nil => simp [replaceLastRunning]
  | cons x xs ih => simp [replaceLastRunning, ih]

/-- C10: when the child has exited but its output is unclaimed, both
`run_if_needed` and `restart` consume the finished run internally: the
`Running` entry is closed out and the output reference discarded, so a
later external `try_finish` returns `none` and the caller never sees that
run's output. -/
theorem internal_finish_discards_output (h : CommandHistory) (hs : List CommandState)
    (c : ChildProc) (o : CommandOutput) (rest : List PollStep) (h2 h3 : CommandHistory)
    (hhist : h.history = hs ++ [CommandState.Running])
    (hchild : h.runner.child = some c)
    (hpolls : c.polls = PollStep.exit o :: rest)
    (hrun : h.run_if_needed = .ok h2)
    (hrestart : h.restart = .ok h3) :
    h2.history = hs ++
        [if h.terminated then CommandState.Terminated o else CommandState.Completed o] ∧
      h2.runner.child = none ∧ h2.runner.child_output = none ∧
      h2.try_finish = .ok (none, h2) ∧
      h3.history = hs ++
        [if h.terminated then CommandState.Terminated o else CommandState.Completed o] ∧
      h3.runner.child_output = none := by
  obtain ⟨⟨ex, ch, co⟩, hist, term⟩ := h
  obtain ⟨polls, killed⟩ := c
  simp only at hhist hchild hpolls ⊢
  subst hhist hchild hpolls
  have hisr : CommandHistory.is_running
      ⟨⟨ex, some ⟨PollStep.exit o :: rest, killed⟩, co⟩, hs ++ [CommandState.Running], term⟩ =
      .ok (false, ⟨⟨ex, none, none⟩,
        hs ++ [if term then CommandState.Terminated o else CommandState.Completed o], term⟩) := by
    cases term <;>
      simp [CommandHistory.is_running, CommandRunner.is_running, ChildProc.poll,
        CommandHistory.try_finish, CommandRunner.try_finish,
        replaceLastRunning_append_running]
  rw [CommandHistory.run_if_needed, hisr] at hrun
  rw [CommandHistory.restart, hisr] at hrestart
  have hlast : (hs ++ [if term then CommandState.Terminated o else CommandState.Completed o]).getLast? =
      some (if term then CommandState.Terminated o else CommandState.Completed o) := by
    simp [List.getLast?_append]
  simp only [hlast] at hrun
  cases term with
  | false =>
    simp only [Bool.false_eq_true, if_false] at hrun hrestart ⊢
    simp only [CommandRunner.run] at hrun hrestart
    simp only [Except.ok.injEq] at hrun
    subst hrun
    refine ⟨rfl, rfl, rfl, ?_, ?_⟩
    · simp [CommandHistory.try_finish, CommandRunner.try_finish, CommandRunner.is_running]
    · cases hex : ex.start with
      | error e =>
        rw [hex] at hrestart
        simp at hrestart
      | ok pair =>
        rw [hex] at hrestart
        obtain ⟨c2, ex2⟩ := pair
        simp only [Except.ok.injEq] at hrestart
        subst hrestart
        exact ⟨rfl, rfl⟩
  | true =>
    simp only [eq_self_iff_true, if_true] at hrun hrestart ⊢
    simp only [CommandRunner.run] at hrun hrestart
    simp only [Except.ok.injEq] at hrun
    subst hrun
    refine ⟨rfl, rfl, rfl, ?_, ?_⟩
    · simp [CommandHistory.try_finish, CommandRunner.try_finish, CommandRunner.is_running]
    · cases hex : ex.start with
      | error e =>
        rw [hex] at hrestart
        simp at hrestart
      | ok pair =>
        rw [hex] at hrestart
        obtain ⟨c2, ex2⟩ := pair
        simp only [Except.ok.injEq] at hrestart
        subst hrestart
        exact ⟨rfl, rfl⟩

/-- Concrete witness for C10: one `Running` entry, child already exited
with a successful output; `run_if_needed` records `Completed` and the
output is never delivered externally. -/
theorem internal_finish_discards_output_witness :
    (⟨⟨⟨[⟨[], false⟩]⟩, none, none⟩, [CommandState.Completed ⟨true, "o", "e"⟩], false⟩ :
        CommandHistory).history =
        [] ++ [if (⟨⟨⟨[⟨[], false⟩]⟩, some ⟨[PollStep.exit ⟨true, "o", "e"⟩], false⟩, none⟩,
          [CommandState.Running], false⟩ : CommandHistory).terminated then
            CommandState.Terminated ⟨true, "o", "e"⟩ else CommandState.Completed ⟨true, "o", "e"⟩] ∧
      (⟨⟨⟨[⟨[], false⟩]⟩, none, none⟩, [CommandState.Completed ⟨true, "o", "e"⟩], false⟩ :
        CommandHistory).runner.child = none ∧
      (⟨⟨⟨[⟨[], false⟩]⟩, none, none⟩, [CommandState.Completed ⟨true, "o", "e"⟩], false⟩ :
        CommandHistory).runner.child_output = none ∧
      (⟨⟨⟨[⟨[], false⟩]⟩, none, none⟩, [CommandState.Completed ⟨true, "o", "e"⟩], false⟩ :
        CommandHistory).try_finish =
        .ok (none, ⟨⟨⟨[⟨[], false⟩]⟩, none, none⟩,
          [CommandState.Completed ⟨true, "o", "e"⟩], false⟩) ∧
      (⟨⟨⟨[]⟩, some ⟨[], false⟩, none⟩, [CommandState.Completed ⟨true, "o", "e"⟩], false⟩ :
        CommandHistory).history =
        [] ++ [if (⟨⟨⟨[⟨[], false⟩]⟩, some ⟨[PollStep.exit ⟨true, "o", "e"⟩], false⟩, none⟩,
          [CommandState.Running], false⟩ : CommandHistory).terminated then
            CommandState.Terminated ⟨true, "o", "e"⟩ else CommandState.Completed ⟨true, "o", "e"⟩] ∧
      (⟨⟨⟨[]⟩, some ⟨[], false⟩, none⟩, [CommandState.Completed ⟨true, "o", "e"⟩], false⟩ :
        CommandHistory).runner.child_output = none :=
  internal_finish_discards_output
    ⟨⟨⟨[⟨[], false⟩]⟩, some ⟨[PollStep.exit ⟨true, "o", "e"⟩], false⟩, none⟩,
      [CommandState.Running], false⟩
    [] ⟨[PollStep.exit ⟨true, "o", "e"⟩], false⟩ ⟨true, "o", "e"⟩ []
    ⟨⟨⟨[⟨[], false⟩]⟩, none, none⟩, [CommandState.Completed ⟨true, "o", "e"⟩], false⟩
    ⟨⟨⟨[]⟩, some ⟨[], false⟩, none⟩, [CommandState.Completed ⟨true, "o", "e"⟩], false⟩
    rfl rfl rfl (by decide) (by decide)

/-- C1 (code bug): `restart()` while nothing is running starts a run with
no `Running` history entry; when that run finishes, `try_finish` hits the
`unwrap` on the backward search for a `Running` entry and panics. -/
theorem restart_idle_then_finish_panics :
    (CommandHistory.new (CommandRunner.new ⟨[⟨[PollStep.exit ⟨true, "", ""⟩], false⟩]⟩)).runOps
      [Op.restartOp, Op.tryFinishOp] = .error HErr.panicNoRunning := by decide

/-- C2 (code bug): the `terminated` flag is never reset, so after one
graceful restart has recorded `Terminated`, a later run that completes
normally is also recorded as `Terminated`, not `Completed`. -/
theorem terminated_flag_never_reset :
    ((CommandHistory.new (CommandRunner.new
        ⟨[⟨[PollStep.still, PollStep.exit ⟨false, "a", "b"⟩], false⟩,
          ⟨[PollStep.exit ⟨true, "c", "d"⟩], false⟩]⟩)).runOps
      [Op.request_run, Op.run_if_needed, Op.restartOp, Op.tryFinishOp,
        Op.request_run, Op.run_if_needed, Op.tryFinishOp]).map
        (fun h => (h.history, h.terminated)) =
      .ok ([CommandState.Terminated ⟨false, "a", "b"⟩, CommandState.Terminated ⟨true, "c", "d"⟩],
        true) := by decide

/-- C3 counterexample: change events at times 0, 60, 150 with a 100-unit
throttle — each event arrives within the window of the previous one (gaps
60 and 90), yet two `NotRan` entries are produced, because the window is
anchored at the recorded entry's timestamp rather than reset per event. -/
theorem debounce_window_not_sliding :
    (60 - 0 ≤ 100 ∧ 150 - 60 ≤ 100) ∧
      ((TestsHistory.new 100).newFileTrees [0, 60, 150]).history =
        [TestState.NotRan 0, TestState.NotRan 150] := by decide

/-- Events within the throttle of the recorded `NotRan` timestamp are
absorbed without touching the history. -/
theorem newFileTrees_coalesce (t0 : Nat) : ∀ (ts : List Nat) (h : TestsHistory),
    h.history.getLast? = some (TestState.NotRan t0) →
    (∀ t ∈ ts, t - t0 ≤ h.throttle) → h.newFileTrees ts = h := by
  intro ts
  induction ts with
  | nil => intro h _ _; rfl
  | cons t ts ih =>
    intro h hlast hts
    show (h.new_file_tree t).newFileTrees ts = h
    have habsorb : h.new_file_tree t = h := by
      unfold TestsHistory.new_file_tree
      rw [hlast]
      simp [hts t (by simp)]
    rw [habsorb]
    exact ih h hlast (fun u hu => hts u (by simp [hu]))

/-- C3 amended: the debounce window is anchored at the burst's first
event, not reset on every event — a burst starting at `t0`, all of whose
later events lie within the throttle of `t0` itself, produces exactly one
`NotRan` entry; a burst that merely keeps successive gaps below the
throttle can produce more. -/
theorem debounce_anchored_at_first_event (base : TestsHistory) (t0 : Nat) (ts : List Nat)
    (hlast : ∀ t, base.history.getLast? ≠ some (TestState.NotRan t))
    (hts : ∀ t ∈ ts, t - t0 ≤ base.throttle) :
    (base.newFileTrees (t0 :: ts)).history = base.history ++ [TestState.NotRan t0] := by
  show ((base.new_file_tree t0).newFileTrees ts).history = _
  have hpush : base.new_file_tree t0 =
      { base with history := base.history ++ [TestState.NotRan t0] } := by
    unfold TestsHistory.new_file_tree
    cases hl : base.history.getLast? with
    | none => rfl
    | some st =>
      cases st with
      | NotRan t => exact absurd hl (hlast t)
      | Running => rfl
      | Completed o => rfl
  rw [hpush]
  rw [newFileTrees_coalesce t0 ts
    { base with history := base.history ++ [TestState.NotRan t0] }
    (by simp [List.getLast?_append]) (fun u hu => hts u hu)]

/-- Concrete witness for C3's amended statement: events 5, 50, 105 with
throttle 100 (all within 100 of the first event) yield one entry. -/
theorem debounce_anchored_at_first_event_witness :
    ((TestsHistory.new 100).newFileTrees (5 :: [50, 105])).history =
      (TestsHistory.new 100).history ++ [TestState.NotRan 5] :=
  debounce_anchored_at_first_event (TestsHistory.new 100) 5 [50, 105]
    (fun t hc => Option.noConfusion hc) (by decide)

/-- C4 counterexample: the process has exited and the capture times out
holding partial data; `poll` reports the run finished with that partial
output instead of "not finished yet" — there is no retry on a later
poll. -/
theorem capture_timeout_delivers_partial :
    popenPoll ⟨some true, .error ⟨IOErrorKind.timedOut, (some [], some [])⟩⟩ =
        .ok (some ⟨true, "", ""⟩) ∧
      popenPoll ⟨some true, .error ⟨IOErrorKind.timedOut, (some [], some [])⟩⟩ ≠
        .ok none := by decide

/-- C4 amended: when the exited process's capture times out transiently,
`poll` immediately reports the run finished with the partially captured
output (no retry); only non-timeout I/O errors during capture propagate
as a fatal error. -/
theorem capture_error_classification (success : Bool) (err errNT : CommunicateError)
    (b1 b2 : List Nat) (o e : String)
    (hk : err.kind = IOErrorKind.timedOut)
    (hcap : err.capture = (some b1, some b2))
    (h1 : from_utf8 b1 = some o) (h2 : from_utf8 b2 = some e)
    (hk2 : errNT.kind ≠ IOErrorKind.timedOut) :
    popenPoll ⟨some success, .error err⟩ = .ok (some ⟨success, o, e⟩) ∧
      popenPoll ⟨some success, .error errNT⟩ = .error (.ioError errNT) := by
  constructor
  · simp [popenPoll, hk, hcap, h1, h2]
  · simp [popenPoll, hk2]

/-- Concrete witness for C4's amended statement. -/
theorem capture_error_classification_witness :
    popenPoll ⟨some false, .error ⟨IOErrorKind.timedOut, (some [111, 107], some [])⟩⟩ =
        .ok (some ⟨false, "ok", ""⟩) ∧
      popenPoll ⟨some false, .error ⟨IOErrorKind.other "broken pipe", (none, none)⟩⟩ =
        .error (.ioError ⟨IOErrorKind.other "broken pipe", (none, none)⟩) :=
  capture_error_classification false
    ⟨IOErrorKind.timedOut, (some [111, 107], some [])⟩
    ⟨IOErrorKind.other "broken pipe", (none, none)⟩
    [111, 107] [] "ok" "" rfl rfl (by decide) (by decide) (by decide)

/-- Is the most recent test state a successful completion? -/
def lastCompletedSuccess (h : TestsHistory) : Bool :=
  match h.history.getLast? with
  | some (TestState.Completed o) => o.success
  | _ => false

theorem want_to_restart_iff (h : TestsHistory) :
    h.want_to_restart_server = true ↔
      (lastCompletedSuccess h = true ∧
        h.server_running_at ≠ some (h.history.length - 1)) := by
  unfold TestsHistory.want_to_restart_server lastCompletedSuccess
  split
  case isTrue hcond => simp [hcond]
  case isFalse hcond =>
    split <;> simp_all

theorem server_try_finish_frame (h : TestsHistory) (out : Option CommandOutput)
    (h1 : TestsHistory) (hst : h.server_try_finish out = .ok h1) :
    h1.history = h.history ∧ h1.server_running_at = h.server_running_at := by
  unfold TestsHistory.server_try_finish at hst
  split at hst <;> simp only [Except.ok.injEq, reduceCtorEq] at hst <;> subst hst <;>
    exact ⟨rfl, rfl⟩

theorem want_to_restart_congr (h h1 : TestsHistory) (hh : h1.history = h.history)
    (hs : h1.server_running_at = h.server_running_at) :
    h1.want_to_restart_server = h.want_to_restart_server := by
  unfold TestsHistory.want_to_restart_server
  rw [hh, hs]

theorem lastCompletedSuccess_congr (h h1 : TestsHistory) (hh : h1.history = h.history) :
    lastCompletedSuccess h1 = lastCompletedSuccess h := by
  unfold lastCompletedSuccess
  rw [hh]

/-- C8: the server branch of a tick touches the server process
(terminates or starts it) only when the most recent test state is a
successful completion and the server is not already running for that
history entry; when the most recent test state is anything else the
branch does nothing to the server beyond draining its finished output,
and the restart eligibility it reads is unchanged for a later tick. -/
theorem server_gate (h h2 : TestsHistory) (srv srv1 srv2 : CommandRunner)
    (a : Option ServerAction) (res : Option CommandOutput)
    (htf : srv.try_finish = .ok (res, srv1))
    (ht : serverTick h srv = .ok (h2, srv2, a)) :
    (a.isSome = true →
      lastCompletedSuccess h = true ∧
        h.server_running_at ≠ some (h.history.length - 1)) ∧
      (lastCompletedSuccess h = false →
        a = none ∧ srv2 = srv1 ∧ h2.history = h.history ∧
          h2.server_running_at = h.server_running_at) ∧
      (a = none →
        srv2 = srv1 ∧ h2.history = h.history ∧
          h2.server_running_at = h.server_running_at ∧
          h2.want_to_restart_server = h.want_to_restart_server) := by
  unfold serverTick at ht
  rw [htf] at ht
  simp only at ht
  split at ht
  · cases ht
  case _ h1 hstf =>
    obtain ⟨hh1, hs1⟩ := server_try_finish_frame _ _ _ hstf
    split at ht
    case isTrue hwant =>
      have hw : h.want_to_restart_server = true := by
        rw [← want_to_restart_congr h h1 hh1 hs1]
        exact hwant
      obtain ⟨hsucc, hidx⟩ := (want_to_restart_iff h).mp hw
      have hgoal1 : lastCompletedSuccess h = true ∧
          h.server_running_at ≠ some (h.history.length - 1) := ⟨hsucc, hidx⟩
      split at ht
      · cases ht
      case _ srv3 hisr =>
        split at ht
        · cases ht
        case _ srv4 hterm =>
          split at ht
          · cases ht
          case _ h3 hst =>
            simp only [Except.ok.injEq, Prod.mk.injEq] at ht
            obtain ⟨hh2, hsrv2, ha⟩ := ht
            refine ⟨fun _ => hgoal1, fun hfail => ?_, fun hnone => ?_⟩
            · rw [hsucc] at hfail
              cases hfail
            · rw [← ha] at hnone
              cases hnone
      case _ srv3 hisr =>
        split at ht
        · cases ht
        case _ srv4 hrun =>
          simp only [Except.ok.injEq, Prod.mk.injEq] at ht
          obtain ⟨hh2, hsrv2, ha⟩ := ht
          refine ⟨fun _ => hgoal1, fun hfail => ?_, fun hnone => ?_⟩
          · rw [hsucc] at hfail
            cases hfail
          · rw [← ha] at hnone
            cases hnone
    case isFalse hwant =>
      simp only [Except.ok.injEq, Prod.mk.injEq] at ht
      obtain ⟨hh2, hsrv2, ha⟩ := ht
      subst hh2 hsrv2
      refine ⟨?_, ?_, ?_⟩
      · intro hsome
        rw [← ha] at hsome
        cases hsome
      · intro _
        exact ⟨ha.symm, rfl, hh1, hs1⟩
      · intro _
        exact ⟨rfl, hh1, hs1, want_to_restart_congr h h1 hh1 hs1⟩

/-- Concrete witness for C8: last test failed, so the tick only drains
the idle server runner and performs no action. -/
theorem server_gate_witness :
    ((Option.none : Option ServerAction).isSome = true →
      lastCompletedSuccess ⟨[TestState.Completed ⟨false, "", ""⟩], none, [], 100⟩ = true ∧
        (⟨[TestState.Completed ⟨false, "", ""⟩], none, [], 100⟩ :
          TestsHistory).server_running_at ≠ some ((⟨[TestState.Completed ⟨false, "", ""⟩],
            none, [], 100⟩ : TestsHistory).history.length - 1)) ∧
      (lastCompletedSuccess ⟨[TestState.Completed ⟨false, "", ""⟩], none, [], 100⟩ = false →
        (Option.none : Option ServerAction) = none ∧
          (CommandRunner.new ⟨[]⟩) = (CommandRunner.new ⟨[]⟩) ∧
          (⟨[TestState.Completed ⟨false, "", ""⟩], none, [], 100⟩ :
            TestsHistory).history = (⟨[TestState.Completed ⟨false, "", ""⟩], none, [], 100⟩ :
              TestsHistory).history ∧
          (⟨[TestState.Completed ⟨false, "", ""⟩], none, [], 100⟩ :
            TestsHistory).server_running_at = (⟨[TestState.Completed ⟨false, "", ""⟩],
              none, [], 100⟩ : TestsHistory).server_running_at) ∧
      ((Option.none : Option ServerAction) = none →
        (CommandRunner.new ⟨[]⟩) = (CommandRunner.new ⟨[]⟩) ∧
          (⟨[TestState.Completed ⟨false, "", ""⟩], none, [], 100⟩ :
            TestsHistory).history = (⟨[TestState.Completed ⟨false, "", ""⟩], none, [], 100⟩ :
              TestsHistory).history ∧
          (⟨[TestState.Completed ⟨false, "", ""⟩], none, [], 100⟩ :
            TestsHistory).server_running_at = (⟨[TestState.Completed ⟨false, "", ""⟩],
              none, [], 100⟩ : TestsHistory).server_running_at ∧
          (⟨[TestState.Completed ⟨false, "", ""⟩], none, [], 100⟩ :
            TestsHistory).want_to_restart_server = (⟨[TestState.Completed ⟨false, "", ""⟩],
              none, [], 100⟩ : TestsHistory).want_to_restart_server) :=
  server_gate ⟨[TestState.Completed ⟨false, "", ""⟩], none, [], 100⟩
    ⟨[TestState.Completed ⟨false, "", ""⟩], none, [], 100⟩
    (CommandRunner.new ⟨[]⟩) (CommandRunner.new ⟨[]⟩) (CommandRunner.new ⟨[]⟩)
    none none (by decide) (by decide)

/-- C9: the rendered test glyph strip has length exactly the terminal
width `n`; with fewer history entries than the width it is blank padding
followed by every history glyph, and otherwise it is exactly the glyphs
of the most recent `n` entries. -/
theorem print_test_shape (okStr : String) (history : List TestState) (n : Nat) :
    (print_test okStr history n).length = n ∧
      (history.length < n →
        print_test okStr history n =
          List.replicate (n - history.length) blankGlyph ++
            history.map (testGlyph okStr)) ∧
      (n ≤ history.length →
        print_test okStr history n =
          (history.map (testGlyph okStr)).drop (history.length - n)) := by
  refine ⟨?_, ?_, ?_⟩
  · simp only [print_test, List.length_take, List.length_drop, List.length_append,
      List.length_replicate, List.length_map]
    omega
  · intro hlt
    unfold print_test
    rw [List.drop_append_of_le_length (by simp; omega), List.drop_replicate]
    apply List.take_of_length_le
    simp only [List.length_append, List.length_replicate, List.length_map]
    omega
  · intro hge
    unfold print_test
    rw [List.drop_append_eq_append_drop,
      List.drop_eq_nil_of_le (by simp; omega), List.length_replicate]
    simp only [List.nil_append]
    apply List.take_of_length_le
    simp only [List.length_drop, List.length_map]
    omega

/-- Concrete witness for C9 at widths 4 (padding) and 1 (truncation). -/
theorem print_test_shape_witness :
    ((print_test "y" [TestState.Running, TestState.NotRan 0] 4).length = 4 ∧
      ((2 : Nat) < 4 →
        print_test "y" [TestState.Running, TestState.NotRan 0] 4 =
          List.replicate (4 - 2) blankGlyph ++
            [TestState.Running, TestState.NotRan 0].map (testGlyph "y")) ∧
      ((4 : Nat) ≤ 2 →
        print_test "y" [TestState.Running, TestState.NotRan 0] 4 =
          ([TestState.Running, TestState.NotRan 0].map (testGlyph "y")).drop (2 - 4))) ∧
      print_test "y" [TestState.Running, TestState.NotRan 0] 1 =
        ([TestState.Running, TestState.NotRan 0].map (testGlyph "y")).drop (2 - 1) :=
  ⟨print_test_shape "y" [TestState.Running, TestState.NotRan 0] 4,
    (print_test_shape "y" [TestState.Running, TestState.NotRan 0] 1).2.2 (by decide)⟩

end Watchdo
